import Mathlib

/-!
Verification of the TaskMaster task-tracking core (`src/core/task-manager.ts`,
`src/core/storage.ts`, `src/core/types.ts`) by a shallow embedding in Lean 4.

Statuses and priorities are carried as strings, exactly as they appear in the
persisted JSON document (the TypeScript union types are not enforced at
runtime); identifiers are strings parsed with JavaScript `parseInt(-, 10)`
semantics where the code does so.  Time is modelled by passing the current
ISO-timestamp string `now` explicitly to every operation that reads the clock.
-/

namespace TaskMaster

/-! ### JavaScript number/string primitives used by the core -/

/-- The decimal digit character for `d < 10` (JS `String(n)` digit). -/
def decimalDigit (d : Nat) : Char :=
  if d = 0 then '0' else if d = 1 then '1' else if d = 2 then '2'
  else if d = 3 then '3' else if d = 4 then '4' else if d = 5 then '5'
  else if d = 6 then '6' else if d = 7 then '7' else if d = 8 then '8'
  else if d = 9 then '9' else '*'

/-- Decimal digit list of `n`, most significant first, with fuel for
structural recursion (`fuel > n` suffices). -/
def natDigitsAux : Nat → Nat → List Char
  | 0, _ => []
  | fuel + 1, n =>
      if n < 10 then [decimalDigit n]
      else natDigitsAux fuel (n / 10) ++ [decimalDigit (n % 10)]

/-- Decimal digit list of a natural number, most significant first
(model of JS `String(n)` for a non-negative integer). -/
def natDigits (n : Nat) : List Char := natDigitsAux (n + 1) n

/-- Model of JS `String(n)` on a non-negative integer. -/
def natToString (n : Nat) : String := String.mk (natDigits n)

/-- Model of JS `String(i)` on an integer. -/
def intToString (i : Int) : String :=
  if i < 0 then "-" ++ natToString i.natAbs else natToString i.toNat

/-- Numeric value of a list of decimal digit characters. -/
def digitsVal (cs : List Char) : Nat :=
  cs.foldl (fun a c => 10 * a + (c.toNat - 48)) 0

/-- JS whitespace skipped by `parseInt`. -/
def isJsSpace (c : Char) : Bool :=
  c = ' ' || c = '\t' || c = '\n' || c = '\r'

/-- Model of JS `parseInt(s, 10)`: skip whitespace, optional sign, then the
longest prefix of decimal digits; `none` models `NaN` (no digits found).
Trailing non-digit characters are ignored, as in JS. -/
def parseIntJS (s : String) : Option Int :=
  let cs := s.data.dropWhile isJsSpace
  let sign : Int := if cs.headD ' ' = '-' then -1 else 1
  let body :=
    if cs.headD ' ' = '-' || cs.headD ' ' = '+' then cs.tail else cs
  let ds := body.takeWhile Char.isDigit
  if ds.isEmpty then none else some (sign * digitsVal ds)

/-- Model of JS `parseInt(s, 10) || 0` (`NaN` collapses to `0`). -/
def parseIntOr0 (s : String) : Int :=
  (parseIntJS s).getD 0

/-- Split a character list on `'.'` (model of JS `s.split('.')`); always
returns a non-empty list of (possibly empty) segments. -/
def splitOnDot : List Char → List (List Char)
  | [] => [[]]
  | c :: rest =>
      match splitOnDot rest with
      | [] => [[]]
      | p :: ps => if c = '.' then [] :: p :: ps else (c :: p) :: ps

/-- Model of JS `taskId.split('.')`. -/
def splitDot (s : String) : List String :=
  (splitOnDot s.data).map String.mk

/-! ### Data model (`src/core/types.ts`) -/

/-- `Subtask` of `types.ts`; `description` is optional there. -/
structure Subtask where
  id : String
  title : String
  description : Option String
  status : String
  createdAt : String
  updatedAt : String
  deriving DecidableEq, Repr, Inhabited

/-- `Task` of `types.ts`; `details` and `testStrategy` are optional there. -/
structure Task where
  id : String
  title : String
  description : String
  status : String
  priority : String
  dependencies : List String
  subtasks : List Subtask
  details : Option String
  testStrategy : Option String
  createdAt : String
  updatedAt : String
  deriving DecidableEq, Repr, Inhabited

/-- `TaskStore` of `types.ts`: the persisted root document. -/
structure TaskStore where
  version : String
  projectName : Option String
  tasks : List Task
  lastUpdated : String
  deriving DecidableEq, Repr, Inhabited

/-- `CreateTaskInput` of `types.ts` (optional fields are `Option`). -/
structure CreateTaskInput where
  title : String
  description : Option String := none
  priority : Option String := none
  dependencies : Option (List String) := none
  details : Option String := none
  testStrategy : Option String := none
  deriving DecidableEq, Repr, Inhabited

/-- `UpdateTaskInput` of `types.ts`: every field optional; `id`, `createdAt`
and `subtasks` are absent from this type, so they cannot be supplied. -/
structure UpdateTaskInput where
  title : Option String := none
  description : Option String := none
  status : Option String := none
  priority : Option String := none
  dependencies : Option (List String) := none
  details : Option String := none
  testStrategy : Option String := none
  deriving DecidableEq, Repr, Inhabited

/-- `CreateSubtaskInput` of `types.ts`. -/
structure CreateSubtaskInput where
  title : String
  description : Option String := none
  deriving DecidableEq, Repr, Inhabited

/-- `TaskStats` of `types.ts`. -/
structure TaskStats where
  total : Nat
  pending : Nat
  inProgress : Nat
  done : Nat
  blocked : Nat
  deferred : Nat
  completionPercentage : Int
  deriving DecidableEq, Repr, Inhabited

/-! ### IEEE binary64 model for `getStats` (`completionPercentage`)

JS numbers are IEEE-754 binary64.  The model below computes correctly rounded
(round-to-nearest, ties-to-even) division and multiplication with exact
integer arithmetic: a double is carried as an exact dyadic rational
`m * 2 ^ e` (a pair of integers), and the rational inputs as integer pairs
`n / d` with `d > 0`.  Valid for values in the normal range, which amply
covers task counts (exact as doubles below `2 ^ 53`) and percentages. -/

/-- Nearest integer to `n / d` (`d > 0`), ties to even. -/
def rnIntQ (n d : Int) : Int :=
  let f := n.ediv d
  let r2 := 2 * (n - f * d)
  if r2 < d then f else if d < r2 then f + 1
  else if f % 2 = 0 then f else f + 1

/-- Fuelled binade search for `n / d` with `n, d > 0`:
the `e` with `d * 2 ^ e ≤ n < d * 2 ^ (e + 1)`. -/
def ilog2Q : Nat → Int → Int → Int
  | 0, _, _ => 0
  | fuel + 1, n, d =>
      if n < d then ilog2Q fuel (2 * n) d - 1
      else if n < 2 * d then 0
      else ilog2Q fuel n (2 * d) + 1

/-- Round the rational `n / d` (`d > 0`) to the nearest binary64 value,
returned as a dyadic pair `(m, e)` of value `m * 2 ^ e`. -/
def rnDoubleQ (n d : Int) : Int × Int :=
  if n = 0 then (0, 0)
  else
    let s : Int := if n < 0 then -1 else 1
    let a : Int := (n.natAbs : Int)
    let e := ilog2Q 2200 a d
    let m :=
      if 0 ≤ 52 - e then rnIntQ (a * 2 ^ (52 - e).toNat) d
      else rnIntQ a (d * 2 ^ (e - 52).toNat)
    (s * m, e - 52)

/-- JS `a / b` on exactly representable integer operands: the correctly
rounded double quotient. -/
def jsDivInt (a b : Int) : Int × Int := rnDoubleQ a b

/-- JS `x * k` for a double `x` and an exactly representable integer `k`:
the correctly rounded double product. -/
def jsMulInt (x : Int × Int) (k : Int) : Int × Int :=
  if 0 ≤ x.2 then rnDoubleQ (x.1 * k * 2 ^ x.2.toNat) 1
  else rnDoubleQ (x.1 * k) (2 ^ (-x.2).toNat)

/-- JS `Math.round` on a double given as a dyadic pair: the integer nearest
to its exact value, half toward positive infinity (`⌊v + 1/2⌋`). -/
def jsRoundD (x : Int × Int) : Int :=
  if 0 ≤ x.2 then x.1 * 2 ^ x.2.toNat
  else (2 * x.1 + 2 ^ (-x.2).toNat).ediv (2 * 2 ^ (-x.2).toNat)

/-- `Math.round((done / total) * 100)` in binary64, as the source computes
the completion percentage. -/
def jsPercentage (doneCount total : Nat) : Int :=
  jsRoundD (jsMulInt (jsDivInt (doneCount : Int) (total : Int)) 100)

/-! ### Manager (`src/core/task-manager.ts`), pure parts

Each operation models one synchronous call: the task list is the one obtained
from `storage.getTasks()`, and a save is the functional update of the store
document (`saveTasks` below). -/

/-- JS `Array.prototype.findIndex`, returning the index and the element. -/
def findIndex (p : α → Bool) : List α → Option (Nat × α)
  | [] => none
  | x :: xs =>
      if p x then some (0, x)
      else (findIndex p xs).map (fun r => (r.1 + 1, r.2))

/-- JS `Math.max(...values)` on a non-empty integer list. -/
def jsMax : List Int → Int
  | [] => 0
  | x :: xs => xs.foldl max x

/-- `TaskManager.generateTaskId`: `'1'` when empty, else
`String(Math.max(...tasks.map(t => parseInt(t.id, 10) || 0)) + 1)`. -/
def generateTaskId (tasks : List Task) : String :=
  match tasks with
  | [] => "1"
  | _ => intToString (jsMax (tasks.map (fun t => parseIntOr0 t.id)) + 1)

/-- `TaskManager.generateSubtaskId` (same rule, over a subtask list). -/
def generateSubtaskId (subtasks : List Subtask) : String :=
  match subtasks with
  | [] => "1"
  | _ => intToString (jsMax (subtasks.map (fun s => parseIntOr0 s.id)) + 1)

/-- Lookup result of `getTask`/`setStatus`: a task or a subtask. -/
abbrev TaskOrSubtask := Task ⊕ Subtask

/-- `TaskManager.getTask`: dotted-id lookup over the stored tasks. -/
def getTask (st : TaskStore) (taskId : String) : Option TaskOrSubtask :=
  let tasks := st.tasks
  let parts := splitDot taskId
  match tasks.find? (fun t => t.id = parts.headD "") with
  | none => none
  | some task =>
    if parts.length = 1 then some (Sum.inl task)
    else
      match task.subtasks.find? (fun s => s.id = parts.getD 1 "") with
      | some s => some (Sum.inr s)
      | none => none

/-- The own property keys of `Object.prototype`.  `priorityOrder` is a
plain object literal, so looking up one of these as a priority yields the
inherited member (a function, or `Object.prototype` itself for
`__proto__`) — non-nullish, so `?? 1` does not fire, and comparator
arithmetic on the member produces `NaN`. -/
def objectPrototypeKeys : List String :=
  ["constructor", "hasOwnProperty", "isPrototypeOf",
   "propertyIsEnumerable", "toLocaleString", "toString", "valueOf",
   "__proto__", "__defineGetter__", "__defineSetter__",
   "__lookupGetter__", "__lookupSetter__"]

/-- The value of the JS lookup `priorityOrder[p] ?? 1` in `getNextTask`:
a number (`high` 0, `medium` 1, `low` 2, other absent keys default 1), or
the inherited `Object.prototype` member named `p`.  Each such key denotes
one fixed object, so two looked-up members are `===`-equal iff their keys
are equal. -/
def priorityValue (p : String) : Int ⊕ String :=
  if p = "high" then Sum.inl 0 else if p = "medium" then Sum.inl 1
  else if p = "low" then Sum.inl 2
  else if objectPrototypeKeys.contains p then Sum.inr p
  else Sum.inl 1

/-- The claim's total priority rank; the code's lookup coincides with it
whenever the priority is not an inherited `Object.prototype` key. -/
def specPriorityRank (p : String) : Int :=
  if p = "high" then 0 else if p = "medium" then 1
  else if p = "low" then 2 else 1

/-- `parseInt(s, 10)` as the code's binary64 number: the parsed
mathematical integer rounded to the nearest double, as a dyadic pair
`(m, e)` of value `m * 2^e`; `none` is `NaN`. -/
def parseIntDouble (s : String) : Option (Int × Int) :=
  (parseIntJS s).map (fun x => rnDoubleQ x 1)

/-- Exact difference of two dyadics by common-exponent subtraction.  The
comparator's actual value is this difference rounded to a double; rounding
preserves the sign and the sort consumes only the sign, so the exact
difference is carried. -/
def dyadicSub (x y : Int × Int) : Int × Int :=
  let e := min x.2 y.2
  (x.1 * 2 ^ (x.2 - e).toNat - y.1 * 2 ^ (y.2 - e).toNat, e)

/-- The sort comparator of `getNextTask`:
`aPriority !== bPriority ? aPriority - bPriority :
parseInt(a.id, 10) - parseInt(b.id, 10)` on the looked-up priority
values.  `none` models a `NaN` comparator value: a number against an
inherited member, two distinct inherited members, or (on ties) an
unparsable id. -/
def sortCompare (a b : Task) : Option (Int × Int) :=
  match priorityValue a.priority, priorityValue b.priority with
  | Sum.inl pa, Sum.inl pb =>
      if pa ≠ pb then some (pa - pb, 0)
      else
        match parseIntDouble a.id, parseIntDouble b.id with
        | some x, some y => some (dyadicSub x y)
        | _, _ => none
  | Sum.inr ka, Sum.inr kb =>
      if ka = kb then
        match parseIntDouble a.id, parseIntDouble b.id with
        | some x, some y => some (dyadicSub x y)
        | _, _ => none
      else none
  | _, _ => none

/-- `sortCompare a b ≤ 0`, the Boolean order fed to the sort; ECMA-262
SortCompare maps a `NaN` comparator value to `+0` (pair kept in storage
order by the stable sort). -/
def sortLe (a b : Task) : Bool :=
  match sortCompare a b with
  | none => true
  | some d => d.1 ≤ 0

/-- The numeric value of a task's id (meaningful when the id parses). -/
def numId (t : Task) : Int := (parseIntJS t.id).getD 0

/-- Exact rational value of a dyadic pair (used only in proofs). -/
def dyadicVal (x : Int × Int) : ℚ :=
  if 0 ≤ x.2 then (x.1 : ℚ) * 2 ^ x.2.toNat
  else (x.1 : ℚ) / 2 ^ (-x.2).toNat

/-- Stable insertion of `x` into `l`: `x` goes before the first element it
compares `≤` to. -/
def stableInsert (le : α → α → Bool) (x : α) : List α → List α
  | [] => [x]
  | y :: ys => if le x y then x :: y :: ys else y :: stableInsert le x ys

/-- Stable sort (model of `Array.prototype.sort`, which ECMA-262 requires to
be stable; for a consistent comparator every stable sort yields the same
list). -/
def stableSort (le : α → α → Bool) : List α → List α
  | [] => []
  | x :: xs => stableInsert le x (stableSort le xs)

/-- The done-set of `getNextTask`: ids of tasks whose status is `done`. -/
def doneIds (tasks : List Task) : List String :=
  (tasks.filter (fun t => t.status = "done")).map (fun t => t.id)

/-- The candidate pool of `getNextTask`: not `done`/`blocked`/`deferred`,
and every dependency id in the done-set. -/
def availableTasks (tasks : List Task) : List Task :=
  tasks.filter (fun t =>
    !(t.status = "done" || t.status = "blocked" || t.status = "deferred") &&
    t.dependencies.all (fun d => (doneIds tasks).contains d))

/-- `TaskManager.getNextTask`. -/
def getNextTask (st : TaskStore) : Option Task :=
  let tasks := st.tasks
  let available := availableTasks tasks
  if available.isEmpty then none
  else
    match available.find? (fun t => t.status = "in-progress") with
    | some t => some t
    | none => (stableSort sortLe available).head?

/-- `TaskManager.getStats`; `completionPercentage` is computed in binary64
as in the source: `Math.round((done / total) * 100)`. -/
def getStats (st : TaskStore) : TaskStats :=
  let tasks := st.tasks
  let total := tasks.length
  let doneCount := (tasks.filter (fun t => t.status = "done")).length
  { total := total
    pending := (tasks.filter (fun t => t.status = "pending")).length
    inProgress := (tasks.filter (fun t => t.status = "in-progress")).length
    done := doneCount
    blocked := (tasks.filter (fun t => t.status = "blocked")).length
    deferred := (tasks.filter (fun t => t.status = "deferred")).length
    completionPercentage :=
      if total > 0 then jsPercentage doneCount total else 0 }

/-! ### Manager mutations (store-level read-modify-write)

`TaskStorage.save` stamps `lastUpdated` unconditionally;
`TaskStorage.saveTasks` replaces the task sequence and saves.  The failure
paths of the manager return before any save. -/

/-- `TaskStorage.saveTasks` at the document level. -/
def saveTasks (st : TaskStore) (tasks : List Task) (now : String) : TaskStore :=
  { st with tasks := tasks, lastUpdated := now }

/-- `TaskManager.createTask`. -/
def createTask (st : TaskStore) (input : CreateTaskInput) (now : String) :
    Task × TaskStore :=
  let tasks := st.tasks
  let task : Task :=
    { id := generateTaskId tasks
      title := input.title
      description := input.description.getD ""
      status := "pending"
      priority := input.priority.getD "medium"
      dependencies := input.dependencies.getD []
      subtasks := []
      details := input.details
      testStrategy := input.testStrategy
      createdAt := now
      updatedAt := now }
  (task, saveTasks st (tasks ++ [task]) now)

/-- `TaskManager.updateTask`: shallow merge `{ ...task, ...input,
updatedAt: now }` (a field of `input` overwrites exactly when present). -/
def updateTask (st : TaskStore) (taskId : String) (input : UpdateTaskInput)
    (now : String) : Option Task × TaskStore :=
  match findIndex (fun t => t.id = taskId) st.tasks with
  | none => (none, st)
  | some (i, task) =>
    let updatedTask : Task :=
      { task with
        title := input.title.getD task.title
        description := input.description.getD task.description
        status := input.status.getD task.status
        priority := input.priority.getD task.priority
        dependencies := input.dependencies.getD task.dependencies
        details := input.details.or task.details
        testStrategy := input.testStrategy.or task.testStrategy
        updatedAt := now }
    (some updatedTask, saveTasks st (st.tasks.set i updatedTask) now)

/-- `TaskManager.deleteTask`: splice out the first task with the id, then
drop that id from every remaining task's dependency list. -/
def deleteTask (st : TaskStore) (taskId : String) (now : String) :
    Bool × TaskStore :=
  match findIndex (fun t => t.id = taskId) st.tasks with
  | none => (false, st)
  | some (i, _) =>
    let tasks := (st.tasks.eraseIdx i).map (fun t =>
      { t with dependencies := t.dependencies.filter (fun d => d ≠ taskId) })
    (true, saveTasks st tasks now)

/-- `TaskManager.setStatus` (dotted-id aware). -/
def setStatus (st : TaskStore) (taskId status now : String) :
    Option TaskOrSubtask × TaskStore :=
  let parts := splitDot taskId
  match findIndex (fun t => t.id = parts.headD "") st.tasks with
  | none => (none, st)
  | some (i, task) =>
    if parts.length = 1 then
      let t2 := { task with status := status, updatedAt := now }
      (some (Sum.inl t2), saveTasks st (st.tasks.set i t2) now)
    else
      match findIndex (fun s => s.id = parts.getD 1 "") task.subtasks with
      | none => (none, st)
      | some (j, sub) =>
        let sub2 := { sub with status := status, updatedAt := now }
        let t2 := { task with
          subtasks := task.subtasks.set j sub2, updatedAt := now }
        (some (Sum.inr sub2), saveTasks st (st.tasks.set i t2) now)

/-- `TaskManager.addSubtask`. -/
def addSubtask (st : TaskStore) (taskId : String) (input : CreateSubtaskInput)
    (now : String) : Option Subtask × TaskStore :=
  match findIndex (fun t => t.id = taskId) st.tasks with
  | none => (none, st)
  | some (i, task) =>
    let subtask : Subtask :=
      { id := generateSubtaskId task.subtasks
        title := input.title
        description := input.description
        status := "pending"
        createdAt := now
        updatedAt := now }
    let t2 := { task with
      subtasks := task.subtasks ++ [subtask], updatedAt := now }
    (some subtask, saveTasks st (st.tasks.set i t2) now)

/-- The ids assigned by a sequence of `createTask` calls (each step is an
input together with the call's timestamp), threading the store through. -/
def createdIds (st : TaskStore) : List (CreateTaskInput × String) → List String
  | [] => []
  | step :: rest =>
      let r := createTask st step.1 step.2
      r.1.id :: createdIds r.2 rest

/-! ### Storage (`src/core/storage.ts`)

The persisted `tasks.json` file is modelled at the level of parsed JSON
values (`JSON.stringify`/`JSON.parse` are inverse on valid JSON trees, so
the text layer is elided).  `JSON.stringify` omits object properties whose
value is `undefined`, which is how the optional fields of `Task` and
`Subtask` serialize; reading a field of the parsed object is the decoding
direction.  A missing file (`none`) is the uninitialized state, on which
`load` throws. -/

/-- A JSON value (the fragment produced by serializing a `TaskStore`). -/
inductive JValue where
  | jnull : JValue
  | jstr : String → JValue
  | jarr : List JValue → JValue
  | jobj : List (String × JValue) → JValue

/-- Property read on a JSON object's field list (first binding wins,
as JS objects have unique keys). -/
def jlookup (fields : List (String × JValue)) (k : String) : Option JValue :=
  (fields.find? (fun f => f.1 = k)).map (fun f => f.2)

/-- Property write: replace the value of an existing key in place, else
append the new property (JS assignment semantics on objects). -/
def jsetKey : List (String × JValue) → String → JValue → List (String × JValue)
  | [], k, v => [(k, v)]
  | (k', v') :: rest, k, v =>
      if k' = k then (k, v) :: rest else (k', v') :: jsetKey rest k v

/-- `doc.k = v` on a JSON document. -/
def jset (doc : JValue) (k : String) (v : JValue) : JValue :=
  match doc with
  | JValue.jobj fields => JValue.jobj (jsetKey fields k v)
  | other => other

/-- An optional string property: present iff the value is present
(`JSON.stringify` drops `undefined`-valued properties). -/
def optField (k : String) : Option String → List (String × JValue)
  | some s => [(k, JValue.jstr s)]
  | none => []

/-- Serialized form of a `Subtask` (property order as in the object
literal of `addSubtask`). -/
def encodeSubtask (s : Subtask) : JValue :=
  JValue.jobj
    ([("id", JValue.jstr s.id), ("title", JValue.jstr s.title)] ++
      optField "description" s.description ++
      [("status", JValue.jstr s.status),
       ("createdAt", JValue.jstr s.createdAt),
       ("updatedAt", JValue.jstr s.updatedAt)])

/-- Serialized form of a `Task`. -/
def encodeTask (t : Task) : JValue :=
  JValue.jobj
    ([("id", JValue.jstr t.id), ("title", JValue.jstr t.title),
      ("description", JValue.jstr t.description),
      ("status", JValue.jstr t.status),
      ("priority", JValue.jstr t.priority),
      ("dependencies", JValue.jarr (t.dependencies.map JValue.jstr)),
      ("subtasks", JValue.jarr (t.subtasks.map encodeSubtask))] ++
      optField "details" t.details ++
      optField "testStrategy" t.testStrategy ++
      [("createdAt", JValue.jstr t.createdAt),
       ("updatedAt", JValue.jstr t.updatedAt)])

/-- Observe a required string field of a parsed object. -/
def getStr (fields : List (String × JValue)) (k : String) : Option String :=
  match jlookup fields k with
  | some (JValue.jstr s) => some s
  | _ => none

/-- Observe an optional string field (absent property reads as
`undefined`). -/
def getOptStr (fields : List (String × JValue)) (k : String) :
    Option (Option String) :=
  match jlookup fields k with
  | some (JValue.jstr s) => some (some s)
  | none => some none
  | _ => none

/-- Observe a JSON string value. -/
def decodeStr (v : JValue) : Option String :=
  match v with
  | JValue.jstr s => some s
  | _ => none

/-- Decode every element of a JSON array (fails if any element fails). -/
def decodeList (dec : JValue → Option α) : List JValue → Option (List α)
  | [] => some []
  | v :: rest =>
      match dec v, decodeList dec rest with
      | some x, some xs => some (x :: xs)
      | _, _ => none

/-- Observe a string-array field. -/
def getStrList (fields : List (String × JValue)) (k : String) :
    Option (List String) :=
  match jlookup fields k with
  | some (JValue.jarr items) => decodeList decodeStr items
  | _ => none

/-- Read a `Subtask` back from its parsed JSON object. -/
def decodeSubtask (v : JValue) : Option Subtask :=
  match v with
  | JValue.jobj f =>
      match getStr f "id", getStr f "title", getOptStr f "description",
          getStr f "status", getStr f "createdAt", getStr f "updatedAt" with
      | some i, some ti, some de, some st, some ca, some ua =>
          some { id := i, title := ti, description := de, status := st,
                 createdAt := ca, updatedAt := ua }
      | _, _, _, _, _, _ => none
  | _ => none

/-- Read a `Task` back from its parsed JSON object. -/
def decodeTask (v : JValue) : Option Task :=
  match v with
  | JValue.jobj f =>
      match getStr f "id", getStr f "title", getStr f "description",
          getStr f "status", getStr f "priority", getStrList f "dependencies",
          (match jlookup f "subtasks" with
           | some (JValue.jarr items) => decodeList decodeSubtask items
           | _ => none),
          getOptStr f "details", getOptStr f "testStrategy",
          getStr f "createdAt", getStr f "updatedAt" with
      | some i, some ti, some de, some st, some pr, some dp, some sb,
          some dt, some ts, some ca, some ua =>
          some { id := i, title := ti, description := de, status := st,
                 priority := pr, dependencies := dp, subtasks := sb,
                 details := dt, testStrategy := ts,
                 createdAt := ca, updatedAt := ua }
      | _, _, _, _, _, _, _, _, _, _, _ => none
  | _ => none

/-- Read a task sequence back from its parsed JSON array. -/
def decodeTasks (v : JValue) : Option (List Task) :=
  match v with
  | JValue.jarr items => decodeList decodeTask items
  | _ => none

/-- `TaskStorage.load`: fails (`none`) when the file does not exist. -/
def storageLoad (file : Option JValue) : Option JValue := file

/-- `TaskStorage.save`: stamps `lastUpdated`, then writes the document. -/
def storageSave (doc : JValue) (now : String) : JValue :=
  jset doc "lastUpdated" (JValue.jstr now)

/-- `TaskStorage.saveTasks`: load the current document, replace its task
sequence, save.  `none` when uninitialized (`load` throws). -/
def storageSaveTasks (file : Option JValue) (tasks : List Task)
    (now : String) : Option JValue :=
  (storageLoad file).map (fun doc =>
    storageSave (jset doc "tasks" (JValue.jarr (tasks.map encodeTask))) now)

/-- `TaskStorage.getTasks` = `load().tasks`, observed field by field. -/
def storageGetTasks (file : Option JValue) : Option (List Task) :=
  (storageLoad file).bind (fun doc =>
    match doc with
    | JValue.jobj fields => (jlookup fields "tasks").bind decodeTasks
    | _ => none)

/-! ### Concrete examples used by witnesses -/

/-- An initialized, empty store document. -/
def exEmptyStore : TaskStore :=
  { version := "1.0.0", projectName := none, tasks := [], lastUpdated := "l0" }

/-- A task with empty optional parts, parameterized by id/status/priority/
dependencies (concrete instantiation helper for witnesses). -/
def exTask (i s p : String) (deps : List String) : Task :=
  { id := i, title := "t", description := "", status := s, priority := p,
    dependencies := deps, subtasks := [], details := none,
    testStrategy := none, createdAt := "c", updatedAt := "u" }

/-- A concrete subtask with id `"2"`. -/
def exSub2 : Subtask :=
  { id := "2", title := "s", description := none, status := "pending",
    createdAt := "c", updatedAt := "u" }

/-- 40 tasks of which 23 are done: the completion percentage is exactly
57.5 %, a floating-point rounding boundary. -/
def exBugTasks : List Task :=
  List.replicate 23 (exTask "1" "done" "medium" []) ++
    List.replicate 17 (exTask "2" "pending" "medium" [])

/-! ### JSON round-trip lemmas (C7) -/

theorem jlookup_cons (fk : String) (fv : JValue)
    (rest : List (String × JValue)) (k : String) :
    jlookup ((fk, fv) :: rest) k =
      if fk = k then some fv else jlookup rest k := by
  by_cases h : fk = k <;> simp [jlookup, List.find?, h]

theorem jsetKey_cons (fk : String) (fv : JValue)
    (rest : List (String × JValue)) (k : String) (v : JValue) :
    jsetKey ((fk, fv) :: rest) k v =
      if fk = k then (k, v) :: rest else (fk, fv) :: jsetKey rest k v := rfl

theorem jlookup_jsetKey_self (fields : List (String × JValue)) (k : String)
    (v : JValue) : jlookup (jsetKey fields k v) k = some v := by
  induction fields with
  | nil => simp [jsetKey, jlookup]
  | cons f rest ih =>
      obtain ⟨fk, fv⟩ := f
      rw [jsetKey_cons]
      by_cases h : fk = k
      · rw [if_pos h, jlookup_cons]
        simp
      · rw [if_neg h, jlookup_cons, if_neg h]
        exact ih

theorem jlookup_jsetKey_other (fields : List (String × JValue))
    (k1 k2 : String) (v : JValue) (h : k2 ≠ k1) :
    jlookup (jsetKey fields k2 v) k1 = jlookup fields k1 := by
  induction fields with
  | nil => simp [jsetKey, jlookup, h]
  | cons f rest ih =>
      obtain ⟨fk, fv⟩ := f
      rw [jsetKey_cons]
      by_cases hf : fk = k2
      · rw [if_pos hf, jlookup_cons, jlookup_cons, if_neg h,
          if_neg (hf ▸ (fun e => h (e ▸ rfl)) : ¬fk = k1)]
      · rw [if_neg hf, jlookup_cons, jlookup_cons]
        by_cases hk : fk = k1
        · rw [if_pos hk, if_pos hk]
        · rw [if_neg hk, if_neg hk]
          exact ih

theorem decodeStr_map_jstr (l : List String) :
    decodeList decodeStr (l.map JValue.jstr) = some l := by
  induction l with
  | nil => rfl
  | cons s rest ih => simp [decodeList, decodeStr, ih]

theorem decodeSubtask_encodeSubtask (s : Subtask) :
    decodeSubtask (encodeSubtask s) = some s := by
  cases s with
  | mk i ti de st ca ua => cases de <;> rfl

theorem decodeSubtask_map_encode (l : List Subtask) :
    decodeList decodeSubtask (l.map encodeSubtask) = some l := by
  induction l with
  | nil => rfl
  | cons s rest ih => simp [decodeList, decodeSubtask_encodeSubtask, ih]

theorem decodeTask_encodeTask (t : Task) :
    decodeTask (encodeTask t) = some t := by
  cases t with
  | mk i ti de st pr dp sb dt ts ca ua =>
      cases dt <;> cases ts <;>
        simp [encodeTask, decodeTask, getStr, getOptStr, getStrList, jlookup,
          optField, decodeStr_map_jstr, decodeSubtask_map_encode]

theorem decodeTask_map_encode (l : List Task) :
    decodeList decodeTask (l.map encodeTask) = some l := by
  induction l with
  | nil => rfl
  | cons t rest ih => simp [decodeList, decodeTask_encodeTask, ih]

/-! ### List helper lemmas -/

theorem findIndex_eq_none {p : α → Bool} {l : List α}
    (h : ∀ u ∈ l, p u = false) : findIndex p l = none := by
  induction l with
  | nil => rfl
  | cons a l ih =>
      have ha : p a = false := h a (by simp)
      have ih' := ih (fun u hu => h u (by simp [hu]))
      simp [findIndex, ha, ih']

theorem findIndex_append_cons {p : α → Bool} {pre : List α} {x : α}
    {post : List α} (hpre : ∀ u ∈ pre, p u = false) (hx : p x = true) :
    findIndex p (pre ++ x :: post) = some (pre.length, x) := by
  induction pre with
  | nil => simp [findIndex, hx]
  | cons a l ih =>
      have ha : p a = false := hpre a (by simp)
      have ih' := ih (fun u hu => hpre u (by simp [hu]))
      simp [findIndex, ha, ih']

theorem set_append_cons (pre : List α) (x y : α) (post : List α) :
    (pre ++ x :: post).set pre.length y = pre ++ y :: post := by
  induction pre with
  | nil => rfl
  | cons a l ih => simp [List.set, ih]

theorem eraseIdx_append_cons (pre : List α) (x : α) (post : List α) :
    (pre ++ x :: post).eraseIdx pre.length = pre ++ post := by
  induction pre with
  | nil => rfl
  | cons a l ih => simp [List.eraseIdx, ih]

theorem find?_append_cons {p : α → Bool} {pre : List α} {x : α}
    {post : List α} (hpre : ∀ u ∈ pre, p u = false) (hx : p x = true) :
    (pre ++ x :: post).find? p = some x := by
  induction pre with
  | nil => simp [List.find?, hx]
  | cons a l ih =>
      have ha : p a = false := hpre a (by simp)
      simp only [List.cons_append, List.find?, ha]
      exact ih (fun u hu => hpre u (by simp [hu]))

/-! ### Decimal digit lemmas (JS `String(n)` and `parseInt`) -/

theorem decimalDigit_toNat {d : Nat} (h : d < 10) :
    (decimalDigit d).toNat = 48 + d := by
  interval_cases d <;> rfl

theorem decimalDigit_isDigit {d : Nat} (h : d < 10) :
    (decimalDigit d).isDigit = true := by
  interval_cases d <;> rfl

theorem natDigitsAux_fuel (n : Nat) : ∀ f1 f2, n < f1 → n < f2 →
    natDigitsAux f1 n = natDigitsAux f2 n := by
  induction n using Nat.strong_induction_on with
  | _ n ih =>
      intro f1 f2 h1 h2
      match f1, f2 with
      | g1 + 1, g2 + 1 =>
          by_cases hn : n < 10
          · simp [natDigitsAux, hn]
          · have hdiv : n / 10 < n := Nat.div_lt_self (by omega) (by omega)
            have hrec := ih (n / 10) hdiv g1 g2 (by omega) (by omega)
            simp [natDigitsAux, hn, hrec]

theorem natDigits_eq (n : Nat) :
    natDigits n =
      if n < 10 then [decimalDigit n]
      else natDigits (n / 10) ++ [decimalDigit (n % 10)] := by
  by_cases hn : n < 10
  · simp [natDigits, natDigitsAux, hn]
  · have hdiv : n / 10 < n := Nat.div_lt_self (by omega) (by omega)
    have hfuel := natDigitsAux_fuel (n / 10) n (n / 10 + 1)
      (by omega) (by omega)
    simp [natDigits, natDigitsAux, hn, hfuel]

theorem natDigits_all_digit (n : Nat) :
    ∀ c ∈ natDigits n, c.isDigit = true := by
  induction n using Nat.strong_induction_on with
  | _ n ih =>
      rw [natDigits_eq]
      by_cases hn : n < 10
      · simp [hn, decimalDigit_isDigit]
      · have hdiv : n / 10 < n := Nat.div_lt_self (by omega) (by omega)
        simp only [hn, if_false, ite_false]
        intro c hc
        rcases List.mem_append.mp hc with h | h
        · exact ih (n / 10) hdiv c h
        · simp at h
          rw [h]
          exact decimalDigit_isDigit (Nat.mod_lt n (by omega))

theorem natDigits_ne_nil (n : Nat) : natDigits n ≠ [] := by
  rw [natDigits_eq]
  by_cases hn : n < 10 <;> simp [hn]

theorem digitsVal_append (l : List Char) (c : Char) :
    digitsVal (l ++ [c]) = 10 * digitsVal l + (c.toNat - 48) := by
  simp [digitsVal, List.foldl_append]

theorem digitsVal_natDigits (n : Nat) : digitsVal (natDigits n) = n := by
  induction n using Nat.strong_induction_on with
  | _ n ih =>
      rw [natDigits_eq]
      by_cases hn : n < 10
      · simp [hn, digitsVal, decimalDigit_toNat hn]
      · have hdiv : n / 10 < n := Nat.div_lt_self (by omega) (by omega)
        simp only [hn, if_false, ite_false]
        rw [digitsVal_append, ih (n / 10) hdiv,
          decimalDigit_toNat (Nat.mod_lt n (by omega))]
        omega

theorem isJsSpace_eq_false_of_isDigit {c : Char} (h : c.isDigit = true) :
    isJsSpace c = false := by
  by_cases h1 : c = ' '
  · rw [h1] at h
    simp at h
  · by_cases h2 : c = '\t'
    · rw [h2] at h
      simp at h
    · by_cases h3 : c = '\n'
      · rw [h3] at h
        simp at h
      · by_cases h4 : c = '\r'
        · rw [h4] at h
          simp at h
        · simp [isJsSpace, h1, h2, h3, h4]

theorem ne_minus_of_isDigit {c : Char} (h : c.isDigit = true) : c ≠ '-' := by
  intro hc
  rw [hc] at h
  simp at h

theorem ne_plus_of_isDigit {c : Char} (h : c.isDigit = true) : c ≠ '+' := by
  intro hc
  rw [hc] at h
  simp at h

theorem dropWhile_eq_self_of_digits {l : List Char}
    (h : ∀ c ∈ l, c.isDigit = true) : l.dropWhile isJsSpace = l := by
  cases l with
  | nil => rfl
  | cons c cs =>
      have := isJsSpace_eq_false_of_isDigit (h c (by simp))
      simp [List.dropWhile, this]

theorem takeWhile_eq_self_of_all {p : Char → Bool} {l : List Char}
    (h : ∀ c ∈ l, p c = true) : l.takeWhile p = l := by
  induction l with
  | nil => rfl
  | cons c cs ih =>
      have ih' := ih (fun u hu => h u (by simp [hu]))
      simp [List.takeWhile, h c (by simp), ih']

theorem parseIntJS_all_digits (l : List Char) (hne : l ≠ [])
    (hd : ∀ c ∈ l, c.isDigit = true) :
    parseIntJS (String.mk l) = some ((digitsVal l : Nat) : Int) := by
  cases l with
  | nil => exact absurd rfl hne
  | cons c cs =>
      have hc := hd c (by simp)
      have hdrop := dropWhile_eq_self_of_digits hd
      have htake := takeWhile_eq_self_of_all hd
      simp only [parseIntJS, hdrop, htake, List.headD_cons,
        ne_minus_of_isDigit hc, ne_plus_of_isDigit hc]
      simp [ne_minus_of_isDigit hc, ne_plus_of_isDigit hc, htake, hc]

theorem parseIntJS_natToString (n : Nat) :
    parseIntJS (natToString n) = some (n : Int) := by
  rw [natToString,
    parseIntJS_all_digits (natDigits n) (natDigits_ne_nil n)
      (natDigits_all_digit n), digitsVal_natDigits]

theorem parseIntOr0_natToString (n : Nat) :
    parseIntOr0 (natToString n) = (n : Int) := by
  simp [parseIntOr0, parseIntJS_natToString]

theorem intToString_ofNat (n : Nat) :
    intToString ((n : Nat) : Int) = natToString n := by
  simp [intToString]

/-! ### jsMax over the generated id range -/

theorem jsMax_append_singleton (l : List Int) (a : Int) (h : l ≠ []) :
    jsMax (l ++ [a]) = max (jsMax l) a := by
  cases l with
  | nil => exact absurd rfl h
  | cons x xs => simp [jsMax, List.foldl_append]

theorem jsMax_map_range_succ (m : Nat) :
    jsMax ((List.range (m + 1)).map (fun k : Nat => (k : Int) + 1)) =
      (m : Int) + 1 := by
  induction m with
  | zero => rfl
  | succ m ih =>
      rw [List.range_succ]
      simp only [List.map_append, List.map_cons, List.map_nil]
      rw [jsMax_append_singleton _ _ (by simp)]
      rw [ih]
      have hle : (m : Int) + 1 ≤ ((m + 1 : Nat) : Int) + 1 := by
        push_cast
        omega
      rw [max_eq_right hle]

/-! ### C3: id generation across create/delete sequences -/

/-- C3 (counterexample).  Starting empty: create (id `"1"`), create
(id `"2"`), delete `"2"`, create — the last create re-assigns `"2"`
(`max` of the remaining ids plus one), so the assigned sequence is
`"1","2","2"`, not the strictly increasing `"1","2","3"`, and the deleted
id is reused. -/
theorem createTask_id_reuse_counterexample :
    (let r1 := createTask exEmptyStore { title := "A" } "n1"
     let r2 := createTask r1.2 { title := "B" } "n2"
     let r3 := deleteTask r2.2 "2" "n3"
     let r4 := createTask r3.2 { title := "C" } "n4"
     r1.1.id = "1" ∧ r2.1.id = "2" ∧ r3.1 = true ∧
       r4.1.id = "2" ∧ r4.1.id ≠ "3") := by decide

theorem generateTaskId_cons (t : Task) (ts : List Task) :
    generateTaskId (t :: ts) =
      intToString (jsMax ((t :: ts).map (fun u => parseIntOr0 u.id)) + 1) :=
  rfl

theorem createTask_fst_id (st : TaskStore) (input : CreateTaskInput)
    (now : String) :
    (createTask st input now).1.id = generateTaskId st.tasks := rfl

theorem createTask_snd_tasks (st : TaskStore) (input : CreateTaskInput)
    (now : String) :
    (createTask st input now).2.tasks =
      st.tasks ++ [(createTask st input now).1] := rfl

theorem createdIds_cons (st : TaskStore) (step : CreateTaskInput × String)
    (rest : List (CreateTaskInput × String)) :
    createdIds st (step :: rest) =
      (createTask st step.1 step.2).1.id ::
        createdIds (createTask st step.1 step.2).2 rest := rfl

theorem createdIds_invariant (steps : List (CreateTaskInput × String)) :
    ∀ (st : TaskStore) (n : Nat),
      st.tasks.map (fun t => t.id) =
        (List.range n).map (fun k => natToString (k + 1)) →
      createdIds st steps = (List.range' (n + 1) steps.length).map natToString := by
  induction steps with
  | nil => intro st n _; rfl
  | cons step rest ih =>
      intro st n hinv
      have hgen : generateTaskId st.tasks = natToString (n + 1) := by
        cases n with
        | zero =>
            have hnil : st.tasks = [] := by
              simpa using congrArg List.length hinv
            rw [hnil]
            decide
        | succ m =>
            cases htasks : st.tasks with
            | nil =>
                rw [htasks] at hinv
                have := congrArg List.length hinv
                simp at this
            | cons t ts =>
                have hmap : (t :: ts).map (fun u => parseIntOr0 u.id) =
                    (List.range (m + 1)).map (fun k : Nat => (k : Int) + 1) := by
                  have h1 : (t :: ts).map (fun u => parseIntOr0 u.id) =
                      ((t :: ts).map (fun u => u.id)).map parseIntOr0 := by
                    simp [List.map_map]
                  rw [h1, ← htasks, hinv, List.map_map]
                  refine List.map_congr_left ?_
                  intro k _
                  have hp := parseIntOr0_natToString (k + 1)
                  simp only [Function.comp_apply, hp]
                  push_cast
                  ring
                rw [generateTaskId_cons, hmap, jsMax_map_range_succ m]
                have hcast : ((m : Int) + 1 + 1) =
                    (((m + 1 + 1 : Nat)) : Int) := by
                  push_cast
                  ring
                rw [hcast, intToString_ofNat]
      have hid : (createTask st step.1 step.2).1.id = natToString (n + 1) := by
        rw [createTask_fst_id, hgen]
      have htasks2 : (createTask st step.1 step.2).2.tasks.map
          (fun t => t.id) =
          (List.range (n + 1)).map (fun k => natToString (k + 1)) := by
        rw [createTask_snd_tasks, List.map_append, hinv, List.range_succ,
          List.map_append]
        simp [hid]
      have hrest := ih (createTask st step.1 step.2).2 (n + 1) htasks2
      rw [createdIds_cons, hid, hrest]
      rfl

/-- C3 (amended).  In the absence of deletions, successive `createTask`
calls from an empty collection assign the strictly increasing ids
`"1","2","3",…`; in general each call assigns one greater than the maximal
numeric id currently present, so deleting the maximal id lets it be
reused (see the counterexample). -/
theorem createTask_ids_sequential_without_deletes
    (steps : List (CreateTaskInput × String)) (st : TaskStore)
    (h : st.tasks = []) :
    createdIds st steps =
      (List.range steps.length).map (fun k => natToString (k + 1)) := by
  have h0 : st.tasks.map (fun t => t.id) =
      (List.range 0).map (fun k => natToString (k + 1)) := by simp [h]
  rw [createdIds_invariant steps st 0 h0, List.range'_eq_map_range]
  rw [List.map_map]
  refine List.map_congr_left ?_
  intro k _
  simp [Nat.add_comm]

/-- Witness for C3 (amended): three creations from empty assign
`"1","2","3"`. -/
theorem createTask_ids_sequential_without_deletes_witness :
    createdIds exEmptyStore
        [({ title := "A" }, "n1"), ({ title := "B" }, "n2"),
         ({ title := "C" }, "n3")] = ["1", "2", "3"] := by
  have h := createTask_ids_sequential_without_deletes
      [({ title := "A" }, "n1"), ({ title := "B" }, "n2"),
       ({ title := "C" }, "n3")] exEmptyStore rfl
  exact h.trans (by decide)

/-! ### C4: deleteTask removes the task and cleans dependency sets -/

theorem not_mem_filter_ne (l : List String) (x : String) :
    x ∉ l.filter (fun d => d ≠ x) := by
  intro hx
  have := List.of_mem_filter hx
  simp at this

/-- C4.  For an id present in the collection, `deleteTask` returns `true`,
removes the first task bearing that id, and strips the id from the
dependency list of every remaining task (so no remaining task depends on
it); for an id not present it returns `false` (and changes nothing). -/
theorem deleteTask_removes_and_cleans_dependencies (st : TaskStore)
    (taskId now : String) :
    ((∀ t ∈ st.tasks, t.id ≠ taskId) →
      deleteTask st taskId now = (false, st)) ∧
    (∀ pre task post, st.tasks = pre ++ task :: post →
      (∀ u ∈ pre, u.id ≠ taskId) → task.id = taskId →
      deleteTask st taskId now =
        (true,
          { st with
            tasks := (pre ++ post).map (fun t =>
              { t with
                dependencies := t.dependencies.filter (fun d => d ≠ taskId) })
            lastUpdated := now }) ∧
      ∀ u ∈ (deleteTask st taskId now).2.tasks, taskId ∉ u.dependencies) := by
  constructor
  · intro hnone
    have hf : findIndex (fun t => t.id = taskId) st.tasks = none :=
      findIndex_eq_none (fun u hu => by simp [hnone u hu])
    simp [deleteTask, hf]
  · intro pre task post hdec hpre htask
    have hf : findIndex (fun t => t.id = taskId) (pre ++ task :: post) =
        some (pre.length, task) :=
      findIndex_append_cons (fun u hu => by simp [hpre u hu])
        (by simp [htask])
    have hres : deleteTask st taskId now =
        (true,
          { st with
            tasks := (pre ++ post).map (fun t =>
              { t with
                dependencies := t.dependencies.filter (fun d => d ≠ taskId) })
            lastUpdated := now }) := by
      simp only [deleteTask, hdec, hf, eraseIdx_append_cons, saveTasks]
    refine ⟨hres, ?_⟩
    intro u hu
    rw [hres] at hu
    simp only at hu
    rcases List.mem_map.mp hu with ⟨v, _, hv⟩
    rw [← hv]
    exact not_mem_filter_ne v.dependencies taskId

/-- Witness for C4: deleting id `"2"` from a two-task store where task
`"1"` depends on `"2"`, and deleting a missing id. -/
theorem deleteTask_removes_and_cleans_dependencies_witness :
    deleteTask
        { exEmptyStore with
          tasks := [exTask "1" "pending" "medium" ["2"],
                    exTask "2" "pending" "low" []] } "2" "n1" =
      (true,
        { exEmptyStore with
          tasks := [exTask "1" "pending" "medium" []], lastUpdated := "n1" }) ∧
    deleteTask { exEmptyStore with
        tasks := [exTask "1" "pending" "medium" ["2"]] } "9" "n1" =
      (false, { exEmptyStore with
        tasks := [exTask "1" "pending" "medium" ["2"]] }) := by
  constructor
  · have h2 := (deleteTask_removes_and_cleans_dependencies
        { exEmptyStore with
          tasks := [exTask "1" "pending" "medium" ["2"],
                    exTask "2" "pending" "low" []] } "2" "n1").2
        [exTask "1" "pending" "medium" ["2"]] (exTask "2" "pending" "low" [])
        [] rfl (by decide) (by decide)
    exact h2.1.trans (by decide)
  · exact (deleteTask_removes_and_cleans_dependencies
        { exEmptyStore with
          tasks := [exTask "1" "pending" "medium" ["2"]] } "9" "n1").1
      (by decide)

/-! ### C6: updateTask merges exactly the given fields -/

/-- C6.  `updateTask` on an existing id overwrites exactly the fields
present in the input, refreshes `updatedAt`, leaves `id`, `createdAt` and
`subtasks` (absent from `UpdateTaskInput`) unchanged, leaves every other
task unchanged, and persists; on a missing id it returns `null` and
changes nothing. -/
theorem updateTask_merges_only_given_fields (st : TaskStore)
    (taskId : String) (input : UpdateTaskInput) (now : String) :
    ((∀ t ∈ st.tasks, t.id ≠ taskId) →
      updateTask st taskId input now = (none, st)) ∧
    (∀ pre task post, st.tasks = pre ++ task :: post →
      (∀ u ∈ pre, u.id ≠ taskId) → task.id = taskId →
      ∃ t2,
        updateTask st taskId input now =
          (some t2,
            { st with tasks := pre ++ t2 :: post, lastUpdated := now }) ∧
        t2.id = task.id ∧ t2.createdAt = task.createdAt ∧
        t2.subtasks = task.subtasks ∧ t2.updatedAt = now ∧
        t2.title = input.title.getD task.title ∧
        t2.description = input.description.getD task.description ∧
        t2.status = input.status.getD task.status ∧
        t2.priority = input.priority.getD task.priority ∧
        t2.dependencies = input.dependencies.getD task.dependencies ∧
        t2.details = input.details.or task.details ∧
        t2.testStrategy = input.testStrategy.or task.testStrategy) := by
  constructor
  · intro hnone
    have hf : findIndex (fun t => t.id = taskId) st.tasks = none :=
      findIndex_eq_none (fun u hu => by simp [hnone u hu])
    simp [updateTask, hf]
  · intro pre task post hdec hpre htask
    have hf : findIndex (fun t => t.id = taskId) (pre ++ task :: post) =
        some (pre.length, task) :=
      findIndex_append_cons (fun u hu => by simp [hpre u hu])
        (by simp [htask])
    refine ⟨{ task with
        title := input.title.getD task.title
        description := input.description.getD task.description
        status := input.status.getD task.status
        priority := input.priority.getD task.priority
        dependencies := input.dependencies.getD task.dependencies
        details := input.details.or task.details
        testStrategy := input.testStrategy.or task.testStrategy
        updatedAt := now },
      ?_, rfl, rfl, rfl, rfl, rfl, rfl, rfl, rfl, rfl, rfl, rfl⟩
    simp only [updateTask, hdec, hf, set_append_cons, saveTasks]

/-- Witness for C6: an update supplying `title` and `status` only. -/
theorem updateTask_merges_only_given_fields_witness :
    ∃ t2,
      updateTask { exEmptyStore with tasks := [exTask "1" "pending" "low" []] }
          "1" { title := some "T2", status := some "done" } "n1" =
        (some t2,
          { exEmptyStore with tasks := [t2], lastUpdated := "n1" }) ∧
      t2.id = "1" ∧ t2.createdAt = "c" ∧ t2.subtasks = [] ∧
      t2.updatedAt = "n1" ∧ t2.title = "T2" ∧ t2.status = "done" ∧
      t2.priority = "low" := by
  obtain ⟨t2, heq, hid, hca, hsub, hua, hti, hde, hst, hpr, hdep, hdt, hts⟩ :=
    (updateTask_merges_only_given_fields
        { exEmptyStore with tasks := [exTask "1" "pending" "low" []] } "1"
        { title := some "T2", status := some "done" } "n1").2
      [] (exTask "1" "pending" "low" []) [] rfl (by decide) (by decide)
  exact ⟨t2, heq, by simp_all [exTask]⟩

/-! ### Dotted-id lemmas (`taskId.split('.')`) -/

theorem splitOnDot_ne_nil : ∀ cs : List Char, splitOnDot cs ≠ []
  | [] => by simp [splitOnDot]
  | c :: rest => by
      simp only [splitOnDot]
      cases h : splitOnDot rest with
      | nil => simp
      | cons p ps => by_cases hc : c = '.' <;> simp [hc]

theorem splitOnDot_no_dot (m : List Char) (hm : ∀ c ∈ m, c ≠ '.') :
    splitOnDot m = [m] := by
  induction m with
  | nil => rfl
  | cons c rest ih =>
      have ih' := ih (fun u hu => hm u (by simp [hu]))
      simp [splitOnDot, ih', hm c (by simp)]

theorem splitOnDot_append_dot (n m : List Char) (hn : ∀ c ∈ n, c ≠ '.') :
    splitOnDot (n ++ '.' :: m) = n :: splitOnDot m := by
  induction n with
  | nil =>
      cases h : splitOnDot m with
      | nil => exact absurd h (splitOnDot_ne_nil m)
      | cons p ps => simp [splitOnDot, h]
  | cons a n ih =>
      have ih' := ih (fun u hu => hn u (by simp [hu]))
      simp [splitOnDot, ih', hn a (by simp)]

theorem string_mk_data (s : String) : String.mk s.data = s := rfl

theorem splitDot_append_dot (N M : String) (hN : ∀ c ∈ N.data, c ≠ '.') :
    splitDot (N ++ "." ++ M) = N :: splitDot M := by
  have hdata : (N ++ "." ++ M).data = N.data ++ '.' :: M.data := by
    rw [String.data_append, String.data_append]
    simp
  unfold splitDot
  rw [hdata, splitOnDot_append_dot N.data M.data hN]
  simp [string_mk_data]

theorem splitDot_no_dot (M : String) (hM : ∀ c ∈ M.data, c ≠ '.') :
    splitDot M = [M] := by
  unfold splitDot
  rw [splitOnDot_no_dot M.data hM]
  simp [string_mk_data]

/-! ### C5: setStatus on a dotted id -/

/-- C5.  For a dotted id `"N.M"` whose task `N` and subtask `M` exist,
`setStatus` sets the subtask's status, refreshes the subtask's and the
parent's `updatedAt` to the current time, and changes nothing else: the
parent's remaining fields (in particular its status), the sibling
subtasks, and all other tasks are untouched. -/
theorem setStatus_dotted_updates_subtask_only (st : TaskStore)
    (N M s now : String)
    (hN : ∀ c ∈ N.data, c ≠ '.') (hM : ∀ c ∈ M.data, c ≠ '.')
    (pre : List Task) (task : Task) (post : List Task)
    (hdec : st.tasks = pre ++ task :: post)
    (hpre : ∀ u ∈ pre, u.id ≠ N) (htask : task.id = N)
    (spre : List Subtask) (sub : Subtask) (spost : List Subtask)
    (hsdec : task.subtasks = spre ++ sub :: spost)
    (hspre : ∀ v ∈ spre, v.id ≠ M) (hsub : sub.id = M) :
    setStatus st (N ++ "." ++ M) s now =
      (some (Sum.inr { sub with status := s, updatedAt := now }),
        { st with
          tasks := pre ++
            { task with
              subtasks :=
                spre ++ { sub with status := s, updatedAt := now } :: spost
              updatedAt := now } :: post
          lastUpdated := now }) := by
  have hsplit : splitDot (N ++ "." ++ M) = [N, M] := by
    rw [splitDot_append_dot N M hN, splitDot_no_dot M hM]
  have hf : findIndex (fun t => t.id = N) (pre ++ task :: post) =
      some (pre.length, task) :=
    findIndex_append_cons (fun u hu => by simp [hpre u hu])
      (by simp [htask])
  have hg : findIndex (fun v => v.id = M) (spre ++ sub :: spost) =
      some (spre.length, sub) :=
    findIndex_append_cons (fun v hv => by simp [hspre v hv])
      (by simp [hsub])
  simp only [setStatus, hsplit, List.headD_cons, hdec, hf, List.length_cons,
    List.length_nil, List.getD_cons_succ, List.getD_cons_zero, hsdec, hg,
    set_append_cons, saveTasks]
  simp

/-- Witness for C5 on a concrete store (`setStatus "1.2" "done"`). -/
theorem setStatus_dotted_updates_subtask_only_witness :
    setStatus
        { exEmptyStore with
          tasks := [{ exTask "1" "pending" "high" [] with
            subtasks := [exSub2] }] } ("1" ++ "." ++ "2") "done" "n1" =
      (some (Sum.inr { exSub2 with status := "done", updatedAt := "n1" }),
        { exEmptyStore with
          tasks := [{ exTask "1" "pending" "high" [] with
            subtasks := [{ exSub2 with status := "done", updatedAt := "n1" }],
            updatedAt := "n1" }]
          lastUpdated := "n1" }) := by
  have h := setStatus_dotted_updates_subtask_only
      { exEmptyStore with
        tasks := [{ exTask "1" "pending" "high" [] with
          subtasks := [exSub2] }] } "1" "2" "done" "n1"
      (by decide) (by decide)
      [] ({ exTask "1" "pending" "high" [] with subtasks := [exSub2] }) []
      rfl (by decide) (by decide)
      [] exSub2 [] rfl (by decide) (by decide)
  exact h.trans (by decide)

/-! ### C8: getTask on dotted ids -/

theorem splitDot_ne_nil (s : String) : splitDot s ≠ [] := by
  unfold splitDot
  intro h
  exact splitOnDot_ne_nil s.data (by simpa using h)

/-- C8 (counterexample).  The claim predicts that an id with more than one
dot level resolves no subtask and yields null; but on a store whose task
`"1"` has a subtask `"2"`, `getTask "1.2.3"` looks up the segment between
the first two dots (`"2"`, not the remainder `"2.3"`) and returns that
subtask, not null. -/
theorem getTask_multidot_counterexample :
    getTask
        { exEmptyStore with
          tasks := [{ exTask "1" "pending" "medium" [] with
            subtasks := [exSub2] }] } "1.2.3" = some (Sum.inr exSub2) ∧
    getTask
        { exEmptyStore with
          tasks := [{ exTask "1" "pending" "medium" [] with
            subtasks := [exSub2] }] } "1.2.3" ≠ none := by decide

/-- C8 (amended).  `getTask` splits the id on every dot: for an id
`N ++ "." ++ R` with `N` dot-free, it looks up the task whose id is `N`
and, within it, the subtask whose id equals the first dot-free segment of
`R` (not the entire remainder `R`); segments beyond the second are
ignored, and null is returned when either lookup fails. -/
theorem getTask_dotted_resolves_second_segment (st : TaskStore)
    (N R : String) (hN : ∀ c ∈ N.data, c ≠ '.') :
    getTask st (N ++ "." ++ R) =
      match st.tasks.find? (fun t => t.id = N) with
      | none => none
      | some task =>
        match task.subtasks.find?
            (fun s => s.id = (splitDot R).headD "") with
        | some s => some (Sum.inr s)
        | none => none := by
  have hsplit := splitDot_append_dot N R hN
  cases hrest : splitDot R with
  | nil => exact absurd hrest (splitDot_ne_nil R)
  | cons p ps =>
      rw [hrest] at hsplit
      simp only [getTask, hsplit, List.headD_cons, List.length_cons,
        List.getD_cons_succ, List.getD_cons_zero]
      simp

/-- Witness for C8 (amended) at `N = "1"`, `R = "2.3"`. -/
theorem getTask_dotted_resolves_second_segment_witness :
    getTask
        { exEmptyStore with
          tasks := [{ exTask "1" "pending" "medium" [] with
            subtasks := [exSub2] }] } ("1" ++ "." ++ "2.3") =
      some (Sum.inr exSub2) := by
  have h := getTask_dotted_resolves_second_segment
      { exEmptyStore with
        tasks := [{ exTask "1" "pending" "medium" [] with
          subtasks := [exSub2] }] } "1" "2.3" (by decide)
  exact h.trans (by decide)

/-! ### Sort membership lemmas -/

theorem mem_stableInsert {le : α → α → Bool} {x a : α} {l : List α} :
    a ∈ stableInsert le x l ↔ a = x ∨ a ∈ l := by
  induction l with
  | nil => simp [stableInsert]
  | cons y ys ih =>
      by_cases h : le x y
      · simp [stableInsert, h]
      · simp [stableInsert, h, ih]
        tauto

theorem mem_stableSort {le : α → α → Bool} {l : List α} {a : α} :
    a ∈ stableSort le l ↔ a ∈ l := by
  induction l with
  | nil => simp [stableSort]
  | cons x xs ih => simp [stableSort, mem_stableInsert, ih]

theorem mem_of_head?_eq_some {l : List α} {a : α} (h : l.head? = some a) :
    a ∈ l := by
  cases l <;> simp_all

/-- Any value returned by `getNextTask` belongs to the candidate pool. -/
theorem getNextTask_mem_availableTasks {st : TaskStore} {t : Task}
    (h : getNextTask st = some t) : t ∈ availableTasks st.tasks := by
  simp only [getNextTask] at h
  split at h
  · simp at h
  · split at h
    · rename_i t0 hfind
      obtain rfl : t0 = t := by simpa using h
      exact List.mem_of_find?_eq_some hfind
    · exact mem_stableSort.mp (mem_of_head?_eq_some h)

/-! ### Dyadic value lemmas -/

theorem rnIntQ_one (n : Int) : rnIntQ n 1 = n := by
  have h : n.ediv 1 = n := Int.ediv_one n
  simp [rnIntQ, h]

theorem ilog2Q_spec : ∀ (fuel : Nat) (n d : Int), 0 < d → d ≤ n →
    n < d * 2 ^ fuel →
    0 ≤ ilog2Q fuel n d ∧
    d * 2 ^ (ilog2Q fuel n d).toNat ≤ n ∧
    n < d * 2 ^ ((ilog2Q fuel n d).toNat + 1) := by
  intro fuel
  induction fuel with
  | zero =>
      intro n d hd hdn hlt
      simp at hlt
      omega
  | succ f ih =>
      intro n d hd hdn hlt
      have hnd : ¬ n < d := by omega
      by_cases h2 : n < 2 * d
      · simp only [ilog2Q, if_neg hnd, if_pos h2]
        norm_num
        omega
      · have hstep : d * 2 ^ (f + 1) = 2 * d * 2 ^ f := by
          rw [pow_succ]
          ring
        have hlt' : n < 2 * d * 2 ^ f := hstep ▸ hlt
        obtain ⟨he0, hlo, hhi⟩ := ih n (2 * d) (by omega) (by omega) hlt'
        simp only [ilog2Q, if_neg hnd, if_neg h2]
        set r := ilog2Q f n (2 * d) with hr
        have ht : (r + 1).toNat = r.toNat + 1 := by omega
        refine ⟨by omega, ?_, ?_⟩
        · rw [ht]
          have hx : d * 2 ^ (r.toNat + 1) = 2 * d * 2 ^ r.toNat := by
            ring
          rw [hx]
          exact hlo
        · rw [ht]
          have hx : d * 2 ^ (r.toNat + 1 + 1) = 2 * d * 2 ^ (r.toNat + 1) := by
            ring
          rw [hx]
          exact hhi

theorem dyadicVal_int (m : Int) : dyadicVal (m, 0) = (m : ℚ) := by
  simp [dyadicVal]

theorem dyadicVal_neg_fst (m e : Int) :
    dyadicVal (-m, e) = -dyadicVal (m, e) := by
  unfold dyadicVal
  by_cases h : 0 ≤ e <;> simp [h, neg_div]

theorem dyadicVal_shift (m : Int) (e : Int) (k : Nat) :
    dyadicVal (m * 2 ^ k, e - k) = dyadicVal (m, e) := by
  unfold dyadicVal
  by_cases h1 : 0 ≤ e - (k : Int)
  · have h2 : 0 ≤ e := by omega
    simp only [if_pos h1, if_pos h2]
    push_cast
    rw [mul_assoc, ← pow_add]
    exact congrArg (fun t : ℚ => ((m : ℚ)) * t)
      (congrArg (fun n : Nat => (2 : ℚ) ^ n) (by omega))
  · simp only [if_neg h1]
    by_cases h2 : 0 ≤ e
    · simp only [if_pos h2]
      rw [div_eq_iff (by positivity)]
      push_cast
      rw [mul_assoc, ← pow_add]
      exact congrArg (fun t : ℚ => ((m : ℚ)) * t)
        (congrArg (fun n : Nat => (2 : ℚ) ^ n) (by omega))
    · simp only [if_neg h2]
      rw [div_eq_div_iff (by positivity) (by positivity)]
      push_cast
      rw [mul_assoc, ← pow_add]
      exact congrArg (fun t : ℚ => ((m : ℚ)) * t)
        (congrArg (fun n : Nat => (2 : ℚ) ^ n) (by omega))

theorem dyadicVal_le_same (m1 m2 e : Int) :
    dyadicVal (m1, e) ≤ dyadicVal (m2, e) ↔ m1 ≤ m2 := by
  unfold dyadicVal
  by_cases h : 0 ≤ e
  · simp only [if_pos h]
    rw [mul_le_mul_right (by positivity)]
    exact Int.cast_le
  · simp only [if_neg h]
    rw [div_le_div_iff_of_pos_right (by positivity)]
    exact Int.cast_le

theorem dyadicSub_fst_nonpos_iff (x y : Int × Int) :
    (dyadicSub x y).1 ≤ 0 ↔ dyadicVal x ≤ dyadicVal y := by
  have hex : ∀ u v : Int × Int,
      dyadicVal (u.1 * 2 ^ (u.2 - min u.2 v.2).toNat, min u.2 v.2) =
        dyadicVal u := by
    intro u v
    have hle : min u.2 v.2 ≤ u.2 := min_le_left _ _
    have hk : ((u.2 - min u.2 v.2).toNat : Int) = u.2 - min u.2 v.2 :=
      Int.toNat_of_nonneg (by omega)
    have h := dyadicVal_shift u.1 u.2 (u.2 - min u.2 v.2).toNat
    rw [hk] at h
    have h2 : u.2 - (u.2 - min u.2 v.2) = min u.2 v.2 := by omega
    rw [h2] at h
    exact h
  have hx := hex x y
  have hy : dyadicVal (y.1 * 2 ^ (y.2 - min x.2 y.2).toNat, min x.2 y.2) =
      dyadicVal y := by
    have := hex y x
    rwa [min_comm y.2 x.2] at this
  rw [← hx, ← hy, dyadicVal_le_same]
  simp [dyadicSub]

theorem dyadicSub_fst_antisymm (x y : Int × Int) :
    (dyadicSub y x).1 = -(dyadicSub x y).1 := by
  simp [dyadicSub, min_comm y.2 x.2]

/-! ### Exactness of double rounding on small integers -/

theorem rnDoubleQ_exact_pos (x : Int) (h0 : 0 < x) (h53 : x ≤ 2 ^ 53) :
    dyadicVal (rnDoubleQ x 1) = (x : ℚ) := by
  unfold rnDoubleQ
  have hne : ¬ x = 0 := by omega
  have hng : ¬ x < 0 := by omega
  have ha : ((x.natAbs : Int)) = x := Int.natAbs_of_nonneg (by omega)
  simp only [if_neg hne, if_neg hng, ha, one_mul]
  have hfuel : x < 1 * 2 ^ 2200 := by
    have hbig : (2 : Int) ^ 53 < 2 ^ 2200 := by norm_num
    have := lt_of_le_of_lt h53 hbig
    simpa using this
  obtain ⟨he0, hlo, hhi⟩ := ilog2Q_spec 2200 x 1 one_pos (by omega) hfuel
  set e := ilog2Q 2200 x 1 with hedef
  have hcast : ((e.toNat : Int)) = e := Int.toNat_of_nonneg he0
  have het : e.toNat ≤ 53 := by
    by_contra hcon
    push_neg at hcon
    have hp : (2 : Int) ^ 54 ≤ 2 ^ e.toNat :=
      pow_le_pow_right₀ (by norm_num) hcon
    have hx54 : (2 : Int) ^ 54 ≤ x := le_trans hp (by simpa using hlo)
    have : (2 : Int) ^ 53 < 2 ^ 54 := by norm_num
    omega
  by_cases hc : 0 ≤ 52 - e
  · simp only [if_pos hc, rnIntQ_one]
    have hk : ((52 - e).toNat : Int) = 52 - e := Int.toNat_of_nonneg hc
    have h1 := dyadicVal_shift x 0 (52 - e).toNat
    rw [hk] at h1
    have h2 : (0 : Int) - (52 - e) = e - 52 := by omega
    rw [h2] at h1
    rw [h1, dyadicVal_int]
  · have he53 : e = 53 := by omega
    have hx53 : x = 2 ^ 53 := by
      have ht : e.toNat = 53 := by omega
      rw [ht] at hlo
      have hp : (1 : Int) * 2 ^ 53 = 9007199254740992 := by norm_num
      have hq : (2 : Int) ^ 53 = 9007199254740992 := by norm_num
      omega
    rw [if_neg hc, he53, hx53]
    have hm : rnIntQ (2 ^ 53) (2 ^ ((53 : Int) - 52).toNat) = 2 ^ 52 := by
      decide
    rw [hm]
    norm_num [dyadicVal]

theorem rnDoubleQ_neg_input (x : Int) (h0 : 0 < x) :
    rnDoubleQ (-x) 1 = (-(rnDoubleQ x 1).1, (rnDoubleQ x 1).2) := by
  unfold rnDoubleQ
  have h1 : ¬ (-x) = 0 := by omega
  have h2 : -x < 0 := by omega
  have h3 : ¬ x = 0 := by omega
  have h4 : ¬ x < 0 := by omega
  simp only [if_neg h1, if_pos h2, if_neg h3, if_neg h4, Int.natAbs_neg,
    one_mul, neg_one_mul]

theorem rnDoubleQ_exact (x : Int) (hlo : -(2 ^ 53) ≤ x) (hhi : x ≤ 2 ^ 53) :
    dyadicVal (rnDoubleQ x 1) = (x : ℚ) := by
  rcases lt_trichotomy x 0 with h | h | h
  · have hy := rnDoubleQ_exact_pos (-x) (by omega) (by omega)
    have hneg := rnDoubleQ_neg_input (-x) (by omega)
    rw [neg_neg] at hneg
    rw [hneg]
    have hval : dyadicVal (-(rnDoubleQ (-x) 1).1, (rnDoubleQ (-x) 1).2) =
        -dyadicVal (rnDoubleQ (-x) 1) :=
      dyadicVal_neg_fst (rnDoubleQ (-x) 1).1 (rnDoubleQ (-x) 1).2
    rw [hval, hy]
    push_cast
    ring
  · subst h
    simp [rnDoubleQ, dyadicVal]
  · exact rnDoubleQ_exact_pos x h hhi

/-! ### Order properties of the getNextTask comparator -/

theorem priorityValue_of_not_proto (p : String)
    (h : objectPrototypeKeys.contains p = false) :
    priorityValue p = Sum.inl (specPriorityRank p) := by
  have h' : ¬ p ∈ objectPrototypeKeys := by simpa using h
  unfold priorityValue specPriorityRank
  by_cases h1 : p = "high"
  · simp [h1]
  · by_cases h2 : p = "medium"
    · simp [h1, h2]
    · by_cases h3 : p = "low"
      · simp [h1, h2, h3]
      · simp [h1, h2, h3, h']

theorem sortLe_refl (a : Task) : sortLe a a = true := by
  unfold sortLe sortCompare
  cases priorityValue a.priority with
  | inl pa =>
      cases parseIntDouble a.id with
      | none => simp
      | some x => simp [dyadicSub]
  | inr ka =>
      cases parseIntDouble a.id with
      | none => simp
      | some x => simp [dyadicSub]

theorem sortLe_total (a b : Task) : sortLe a b = true ∨ sortLe b a = true := by
  unfold sortLe sortCompare
  cases hpa : priorityValue a.priority with
  | inl pa =>
      cases hpb : priorityValue b.priority with
      | inl pb =>
          by_cases h : pa = pb
          · subst h
            cases hda : parseIntDouble a.id with
            | none => left; simp
            | some x =>
                cases hdb : parseIntDouble b.id with
                | none => left; simp
                | some y =>
                    have hanti := dyadicSub_fst_antisymm x y
                    rcases le_total (dyadicSub x y).1 0 with hle | hge
                    · left
                      simp [hle]
                    · right
                      simp [hanti]
                      omega
          · have h' : ¬ pb = pa := fun e => h e.symm
            by_cases hcmp : pa - pb ≤ 0
            · left
              simp [h, hcmp]
            · right
              simp [h']
              omega
      | inr kb => left; simp
  | inr ka =>
      cases hpb : priorityValue b.priority with
      | inl pb => left; simp
      | inr kb =>
          by_cases h : ka = kb
          · subst h
            cases hda : parseIntDouble a.id with
            | none => left; simp
            | some x =>
                cases hdb : parseIntDouble b.id with
                | none => left; simp
                | some y =>
                    have hanti := dyadicSub_fst_antisymm x y
                    rcases le_total (dyadicSub x y).1 0 with hle | hge
                    · left
                      simp [hle]
                    · right
                      simp [hanti]
                      omega
          · have h' : ¬ kb = ka := fun e => h e.symm
            left
            simp [h]

theorem sortLe_iff_small {a b : Task}
    (hpa : objectPrototypeKeys.contains a.priority = false)
    (hpb : objectPrototypeKeys.contains b.priority = false)
    (hia : (parseIntJS a.id).isSome) (hib : (parseIntJS b.id).isSome)
    (hba : -(2 ^ 53) ≤ numId a ∧ numId a ≤ 2 ^ 53)
    (hbb : -(2 ^ 53) ≤ numId b ∧ numId b ≤ 2 ^ 53) :
    sortLe a b = true ↔
      (specPriorityRank a.priority < specPriorityRank b.priority ∨
        (specPriorityRank a.priority = specPriorityRank b.priority ∧
          numId a ≤ numId b)) := by
  obtain ⟨x, hx⟩ := Option.isSome_iff_exists.mp hia
  obtain ⟨y, hy⟩ := Option.isSome_iff_exists.mp hib
  have hnx : numId a = x := by simp [numId, hx]
  have hny : numId b = y := by simp [numId, hy]
  have hda : parseIntDouble a.id = some (rnDoubleQ x 1) := by
    simp [parseIntDouble, hx]
  have hdb : parseIntDouble b.id = some (rnDoubleQ y 1) := by
    simp [parseIntDouble, hy]
  have hsub := dyadicSub_fst_nonpos_iff (rnDoubleQ x 1) (rnDoubleQ y 1)
  rw [rnDoubleQ_exact x (by omega) (by omega),
    rnDoubleQ_exact y (by omega) (by omega)] at hsub
  have hxy : (dyadicSub (rnDoubleQ x 1) (rnDoubleQ y 1)).1 ≤ 0 ↔ x ≤ y := by
    rw [hsub]
    exact Int.cast_le
  unfold sortLe sortCompare
  rw [priorityValue_of_not_proto a.priority hpa,
    priorityValue_of_not_proto b.priority hpb]
  by_cases h : specPriorityRank a.priority = specPriorityRank b.priority
  · rw [h]
    simp [hda, hdb, hxy, hnx, hny, lt_irrefl, h]
  · simp only [ne_eq, h, not_false_eq_true, if_true, decide_eq_true_eq]
    constructor
    · intro hle
      left
      omega
    · intro hor
      rcases hor with hlt | ⟨heq, _⟩
      · omega
      · exact heq.elim

theorem sortLe_trans_small {a b c : Task}
    (hpa : objectPrototypeKeys.contains a.priority = false)
    (hpb : objectPrototypeKeys.contains b.priority = false)
    (hpc : objectPrototypeKeys.contains c.priority = false)
    (hia : (parseIntJS a.id).isSome) (hib : (parseIntJS b.id).isSome)
    (hic : (parseIntJS c.id).isSome)
    (hba : -(2 ^ 53) ≤ numId a ∧ numId a ≤ 2 ^ 53)
    (hbb : -(2 ^ 53) ≤ numId b ∧ numId b ≤ 2 ^ 53)
    (hbc : -(2 ^ 53) ≤ numId c ∧ numId c ≤ 2 ^ 53)
    (hab : sortLe a b = true) (hbc2 : sortLe b c = true) :
    sortLe a c = true := by
  rw [sortLe_iff_small hpa hpb hia hib hba hbb] at hab
  rw [sortLe_iff_small hpb hpc hib hic hbb hbc] at hbc2
  rw [sortLe_iff_small hpa hpc hia hic hba hbc]
  rcases hab with h1 | ⟨h1, h1'⟩ <;> rcases hbc2 with h2 | ⟨h2, h2'⟩
  · exact Or.inl (h1.trans h2)
  · exact Or.inl (h2 ▸ h1)
  · exact Or.inl (h1 ▸ h2)
  · exact Or.inr ⟨h1.trans h2, h1'.trans h2'⟩

/-! ### Sortedness of the stable sort -/

theorem pairwise_stableInsert (le : α → α → Bool) (x : α) (l : List α)
    (htot : ∀ a b, le a b = true ∨ le b a = true)
    (htrans : ∀ a b c, a ∈ x :: l → b ∈ x :: l → c ∈ x :: l →
      le a b = true → le b c = true → le a c = true)
    (hl : l.Pairwise (fun a b => le a b = true)) :
    (stableInsert le x l).Pairwise (fun a b => le a b = true) := by
  induction l with
  | nil => simp [stableInsert]
  | cons y ys ih =>
      obtain ⟨hy, hys⟩ := List.pairwise_cons.mp hl
      by_cases h : le x y = true
      · rw [stableInsert, if_pos h]
        refine List.pairwise_cons.mpr ⟨?_, hl⟩
        intro b hb
        rcases List.mem_cons.mp hb with rfl | hb'
        · exact h
        · exact htrans x y b (by simp) (by simp) (by simp [hb']) h (hy b hb')
      · rw [stableInsert, if_neg h]
        refine List.pairwise_cons.mpr ⟨?_, ?_⟩
        · intro b hb
          rcases mem_stableInsert.mp hb with rfl | hb'
          · rcases htot b y with hby | hyb
            · exact absurd hby h
            · exact hyb
          · exact hy b hb'
        · refine ih ?_ hys
          intro a b c hamem hbmem hcmem
          have sub : ∀ u, u ∈ x :: ys → u ∈ x :: y :: ys := by
            intro u hu
            rcases List.mem_cons.mp hu with rfl | hu'
            · simp
            · simp [hu']
          exact htrans a b c (sub a hamem) (sub b hbmem) (sub c hcmem)

theorem pairwise_stableSort (le : α → α → Bool) (l : List α)
    (htot : ∀ a b, le a b = true ∨ le b a = true)
    (htrans : ∀ a b c, a ∈ l → b ∈ l → c ∈ l →
      le a b = true → le b c = true → le a c = true) :
    (stableSort le l).Pairwise (fun a b => le a b = true) := by
  induction l with
  | nil => simp [stableSort]
  | cons x xs ih =>
      rw [stableSort]
      refine pairwise_stableInsert le x (stableSort le xs) htot ?_ ?_
      · intro a b c hamem hbmem hcmem
        have sub : ∀ u, u ∈ x :: stableSort le xs → u ∈ x :: xs := by
          intro u hu
          rcases List.mem_cons.mp hu with rfl | hu'
          · simp
          · simp [mem_stableSort.mp hu']
        exact htrans a b c (sub a hamem) (sub b hbmem) (sub c hcmem)
      · refine ih ?_
        intro a b c ha hb hc
        exact htrans a b c (by simp [ha]) (by simp [hb]) (by simp [hc])

/-! ### C2: getNextTask selection policy -/

set_option maxRecDepth 8192 in
/-- C2 (counterexample).  Two cases refute the claimed tie-breaking.
First, an unrecognized priority is not always ranked medium: for a
priority naming an inherited `Object.prototype` member, the JS lookup
`priorityOrder[p]` returns that member (non-nullish, so `?? 1` does not
fire) and the comparator returns `NaN`, which the sort treats as a tie —
so with storage order `[id "2" priority "toString", id "1" priority
"medium"]` the code returns task `"2"`, while the claim (rank both
medium, ascending numeric id) demands task `"1"`.  Second, ids compare as
binary64 doubles: `"9007199254740993"` (2^53 + 1) and `"9007199254740992"`
(2^53) both parse to the double 2^53, so they tie and storage order wins —
the code returns the numerically larger first-stored id, while the claim
demands the smaller. -/
theorem getNextTask_comparator_counterexample :
    getNextTask
        { exEmptyStore with
          tasks := [exTask "2" "pending" "toString" [],
                    exTask "1" "pending" "medium" []] } =
      some (exTask "2" "pending" "toString" []) ∧
    getNextTask
        { exEmptyStore with
          tasks := [exTask "9007199254740993" "pending" "medium" [],
                    exTask "9007199254740992" "pending" "medium" []] } =
      some (exTask "9007199254740993" "pending" "medium" []) := by decide

/-- C2 (amended).  When the candidate pool is non-empty, `getNextTask`
returns the first candidate in storage order whose status is
`in-progress` if any is; otherwise — provided no candidate's priority
names an inherited `Object.prototype` member, and every candidate id
parses with numeric value of magnitude at most `2^53` (exactly
representable as a double) — it returns a candidate minimal under the
lexicographic order of priority rank (`high` 0, `medium` 1, `low` 2,
other priorities 1), then ascending numeric id.  An empty pool yields
null.  (A priority such as `"toString"` makes the comparator NaN, kept in
storage order; ids beyond `2^53` can collide after double rounding — see
the counterexample.) -/
theorem getNextTask_selection_policy (st : TaskStore) :
    (availableTasks st.tasks = [] → getNextTask st = none) ∧
    (∀ pre t post, availableTasks st.tasks = pre ++ t :: post →
      t.status = "in-progress" → (∀ u ∈ pre, u.status ≠ "in-progress") →
      getNextTask st = some t) ∧
    ((∀ u ∈ availableTasks st.tasks, u.status ≠ "in-progress") →
      availableTasks st.tasks ≠ [] →
      (∀ u ∈ availableTasks st.tasks, (parseIntJS u.id).isSome) →
      (∀ u ∈ availableTasks st.tasks,
        -(2 ^ 53) ≤ numId u ∧ numId u ≤ 2 ^ 53) →
      (∀ u ∈ availableTasks st.tasks,
        objectPrototypeKeys.contains u.priority = false) →
      ∃ t, getNextTask st = some t ∧ t ∈ availableTasks st.tasks ∧
        ∀ c ∈ availableTasks st.tasks,
          specPriorityRank t.priority < specPriorityRank c.priority ∨
          (specPriorityRank t.priority = specPriorityRank c.priority ∧
            numId t ≤ numId c)) := by
  refine ⟨fun hempty => ?_, fun pre t post hdec hprog hpre => ?_,
    fun hnoprog hne hparse hbound hproto => ?_⟩
  · simp [getNextTask, hempty]
  · have hfind : (pre ++ t :: post).find?
        (fun u => u.status = "in-progress") = some t :=
      find?_append_cons (fun u hu => by simp [hpre u hu]) (by simp [hprog])
    have hne : (availableTasks st.tasks).isEmpty = false := by
      rw [hdec]
      simp [List.isEmpty_iff]
    simp [getNextTask, hdec, hne, hfind]
  · have hfind : (availableTasks st.tasks).find?
        (fun u => u.status = "in-progress") = none :=
      List.find?_eq_none.mpr (fun u hu => by simp [hnoprog u hu])
    have hemp : (availableTasks st.tasks).isEmpty = false := by
      simp [List.isEmpty_iff, hne]
    cases hsort : stableSort sortLe (availableTasks st.tasks) with
    | nil =>
        obtain ⟨a, ha⟩ := List.exists_mem_of_ne_nil _ hne
        have : a ∈ stableSort sortLe (availableTasks st.tasks) :=
          mem_stableSort.mpr ha
        rw [hsort] at this
        simp at this
    | cons t rest =>
        have htmem : t ∈ availableTasks st.tasks := by
          have hm : t ∈ stableSort sortLe (availableTasks st.tasks) := by
            rw [hsort]
            simp
          exact mem_stableSort.mp hm
        have hpair := pairwise_stableSort sortLe (availableTasks st.tasks)
          sortLe_total
          (fun a b c ha hb hc hab hbc =>
            sortLe_trans_small (hproto a ha) (hproto b hb) (hproto c hc)
              (hparse a ha) (hparse b hb) (hparse c hc)
              (hbound a ha) (hbound b hb) (hbound c hc) hab hbc)
        rw [hsort] at hpair
        obtain ⟨hmin, _⟩ := List.pairwise_cons.mp hpair
        refine ⟨t, ?_, htmem, fun c hc => ?_⟩
        · simp [getNextTask, hemp, hfind, hsort]
        · have hcs : c ∈ stableSort sortLe (availableTasks st.tasks) :=
            mem_stableSort.mpr hc
          rw [hsort] at hcs
          rcases List.mem_cons.mp hcs with rfl | hcr
          · exact Or.inr ⟨rfl, le_refl _⟩
          · exact (sortLe_iff_small (hproto t htmem) (hproto c hc)
              (hparse t htmem) (hparse c hc) (hbound t htmem)
              (hbound c hc)).mp (hmin c hcr)

/-- Witness for C2 (amended) at a concrete pool: three dependency-free
pending tasks with priorities low/high/medium (in that storage order), no
in-progress task; the high-priority task `"2"` is selected and is
lexicographically minimal. -/
theorem getNextTask_selection_policy_witness :
    ∃ t, getNextTask
        { exEmptyStore with
          tasks := [exTask "3" "pending" "low" [],
                    exTask "2" "pending" "high" [],
                    exTask "1" "pending" "medium" []] } = some t ∧
      t ∈ availableTasks [exTask "3" "pending" "low" [],
                          exTask "2" "pending" "high" [],
                          exTask "1" "pending" "medium" []] ∧
      ∀ c ∈ availableTasks [exTask "3" "pending" "low" [],
                            exTask "2" "pending" "high" [],
                            exTask "1" "pending" "medium" []],
        specPriorityRank t.priority < specPriorityRank c.priority ∨
        (specPriorityRank t.priority = specPriorityRank c.priority ∧
          numId t ≤ numId c) :=
  (getNextTask_selection_policy
      { exEmptyStore with
        tasks := [exTask "3" "pending" "low" [],
                  exTask "2" "pending" "high" [],
                  exTask "1" "pending" "medium" []] }).2.2
    (by decide) (by decide) (by decide) (by decide) (by decide)

/-! ### C1: getNextTask never returns an ineligible task -/

/-- C1.  `getNextTask` never returns a task whose status is `done`,
`blocked`, or `deferred`, and never returns a task having a dependency id
that is not the id of some task whose status is `done` (in particular a
dependency on a non-existent id disqualifies a task). -/
theorem getNextTask_never_ineligible (st : TaskStore) (t : Task)
    (h : getNextTask st = some t) :
    t.status ≠ "done" ∧ t.status ≠ "blocked" ∧ t.status ≠ "deferred" ∧
    ∀ d ∈ t.dependencies, ∃ u ∈ st.tasks, u.id = d ∧ u.status = "done" := by
  have ht := getNextTask_mem_availableTasks h
  rw [availableTasks] at ht
  obtain ⟨htmem, hpred⟩ := List.mem_filter.mp ht
  simp only [Bool.and_eq_true, Bool.not_eq_true', Bool.or_eq_false_iff,
    decide_eq_false_iff_not, List.all_eq_true] at hpred
  obtain ⟨hstat, hdep⟩ := hpred
  have h1 : t.status ≠ "done" := by tauto
  have h2 : t.status ≠ "blocked" := by tauto
  have h3 : t.status ≠ "deferred" := by tauto
  refine ⟨h1, h2, h3, fun d hd => ?_⟩
  have hc := hdep d hd
  rw [List.contains_eq_any_beq] at hc
  simp only [List.any_eq_true, beq_iff_eq] at hc
  obtain ⟨x, hx, hxd⟩ := hc
  rw [doneIds] at hx
  obtain ⟨u, hu, hud⟩ := List.mem_map.mp hx
  obtain ⟨humem, hust⟩ := List.mem_filter.mp hu
  exact ⟨u, humem, by rw [hud, hxd], by simpa using hust⟩

/-- Witness for C1: a store with a done task `"1"` and a pending task
`"2"` depending on it; `getNextTask` returns task `"2"`. -/
theorem getNextTask_never_ineligible_witness :
    (exTask "2" "pending" "medium" ["1"]).status ≠ "done" ∧
    (exTask "2" "pending" "medium" ["1"]).status ≠ "blocked" ∧
    (exTask "2" "pending" "medium" ["1"]).status ≠ "deferred" ∧
    ∀ d ∈ (exTask "2" "pending" "medium" ["1"]).dependencies,
      ∃ u ∈ [exTask "1" "done" "medium" [],
             exTask "2" "pending" "medium" ["1"]],
        u.id = d ∧ u.status = "done" :=
  getNextTask_never_ineligible
    { exEmptyStore with
      tasks := [exTask "1" "done" "medium" [],
                exTask "2" "pending" "medium" ["1"]] }
    (exTask "2" "pending" "medium" ["1"]) (by decide)

/-! ### C7: save/load round trip -/

/-- C7.  On an initialized store (the persisted document is a JSON
object), `saveTasks(tasks)` followed by `getTasks()` observes a task
sequence equal to `tasks` in every field of every task and subtask —
including the optional fields (present or absent) and the untouched
`updatedAt` timestamps. -/
theorem saveTasks_getTasks_roundtrip (file : Option JValue)
    (fields : List (String × JValue)) (tasks : List Task) (now : String)
    (h : file = some (JValue.jobj fields)) :
    storageGetTasks (storageSaveTasks file tasks now) = some tasks := by
  subst h
  simp only [storageSaveTasks, storageLoad, storageSave, jset,
    storageGetTasks, Option.map, Option.bind]
  rw [jlookup_jsetKey_other _ "tasks" "lastUpdated" _ (by decide),
    jlookup_jsetKey_self]
  simp [decodeTasks, decodeTask_map_encode]

/-- Witness for C7: a concrete initialized document and a task exercising
present and absent optional fields. -/
theorem saveTasks_getTasks_roundtrip_witness :
    storageGetTasks
        (storageSaveTasks
          (some (JValue.jobj
            [("version", JValue.jstr "1.0.0"),
             ("tasks", JValue.jarr []),
             ("lastUpdated", JValue.jstr "t0")]))
          [{ exTask "1" "pending" "high" ["2"] with
             details := some "d", subtasks := [exSub2] }] "n1") =
      some [{ exTask "1" "pending" "high" ["2"] with
              details := some "d", subtasks := [exSub2] }] :=
  saveTasks_getTasks_roundtrip _
    [("version", JValue.jstr "1.0.0"), ("tasks", JValue.jarr []),
     ("lastUpdated", JValue.jstr "t0")] _ "n1" rfl

/-! ### C9: getStats counts and completion percentage -/

/-- C9 (divergence at a concrete input).  `getStats` computes
`Math.round((done / total) * 100)` in binary64: with 23 of 40 tasks done,
the double `(23 / 40) * 100` is slightly below `57.5` and rounds to `57`,
whereas exact arithmetic gives `round(57.5) = 58` — so
`completionPercentage` differs from the claimed `round(done/total × 100)`
at this input.  The per-status counts are as claimed. -/
theorem getStats_completion_percentage_float_bug :
    (getStats { exEmptyStore with tasks := exBugTasks }).total = 40 ∧
    (getStats { exEmptyStore with tasks := exBugTasks }).done = 23 ∧
    (getStats { exEmptyStore with tasks := exBugTasks }).pending = 17 ∧
    (getStats { exEmptyStore with tasks := exBugTasks }).inProgress = 0 ∧
    (getStats { exEmptyStore with tasks := exBugTasks }).blocked = 0 ∧
    (getStats { exEmptyStore with tasks := exBugTasks }).deferred = 0 ∧
    (getStats { exEmptyStore with
      tasks := exBugTasks }).completionPercentage = 57 ∧
    (getStats { exEmptyStore with
      tasks := exBugTasks }).completionPercentage ≠ 58 := by decide

/-! ### C10: not-found mutations perform no save -/

/-- C10.  Whenever a Manager mutation reports not-found (`updateTask` or
`setStatus` returning `null`, `addSubtask` returning `null`, `deleteTask`
returning `false`), no save is performed: the store document — every task,
every subtask, and `lastUpdated` — is exactly as before the call. -/
theorem notfound_mutations_do_not_save (st : TaskStore) (taskId now : String) :
    (∀ input, (updateTask st taskId input now).1 = none →
      (updateTask st taskId input now).2 = st) ∧
    ((deleteTask st taskId now).1 = false → (deleteTask st taskId now).2 = st) ∧
    (∀ s, (setStatus st taskId s now).1 = none →
      (setStatus st taskId s now).2 = st) ∧
    (∀ input, (addSubtask st taskId input now).1 = none →
      (addSubtask st taskId input now).2 = st) := by
  refine ⟨fun input h => ?_, fun h => ?_, fun s h => ?_, fun input h => ?_⟩
  · unfold updateTask at h ⊢
    split at h
    · rfl
    · simp at h
  · unfold deleteTask at h ⊢
    split at h
    · rfl
    · simp at h
  · simp only [setStatus] at h ⊢
    split at h
    · rfl
    · split at h
      · simp at h
      · split at h
        · simp_all
        · simp at h
  · unfold addSubtask at h ⊢
    split at h
    · rfl
    · simp at h

/-- Witness for C10 at a concrete store and a missing id. -/
theorem notfound_mutations_do_not_save_witness :
    (updateTask exEmptyStore "2" {} "n").2 = exEmptyStore ∧
    (deleteTask exEmptyStore "2" "n").2 = exEmptyStore ∧
    (setStatus exEmptyStore "2" "done" "n").2 = exEmptyStore ∧
    (addSubtask exEmptyStore "2" { title := "s" } "n").2 = exEmptyStore := by
  refine ⟨?_, ?_, ?_, ?_⟩
  · exact (notfound_mutations_do_not_save exEmptyStore "2" "n").1 {} (by decide)
  · exact (notfound_mutations_do_not_save exEmptyStore "2" "n").2.1 (by decide)
  · exact (notfound_mutations_do_not_save exEmptyStore "2" "n").2.2.1 "done"
      (by decide)
  · exact (notfound_mutations_do_not_save exEmptyStore "2" "n").2.2.2
      { title := "s" } (by decide)

end TaskMaster
